import Mathlib

/-!
Verification of `SCF.py`, a Hartree-Fock self-consistent-field module,
against its specification.

Matrices are embedded as functions `Fin N → Fin N → ℚ` (exact rational
arithmetic standing in for IEEE doubles).  numpy's bounds-checked
indexing is embedded with `Except` wherever a claim turns on index
errors; numpy float division never raises, so division is embedded as
the total field division.
-/

namespace SCF

/-- An `N × N` real matrix, as stored in a dense numpy array. -/
def Mat (N : ℕ) : Type := Fin N → Fin N → ℚ

/-- An `N × N × N × N` tensor of two-electron repulsion integrals. -/
def Tsr (N : ℕ) : Type := Fin N → Fin N → Fin N → Fin N → ℚ

/-- numpy elementwise addition `A + B`. -/
def matAdd {N : ℕ} (A B : Mat N) : Mat N := fun i j => A i j + B i j

/-- numpy elementwise (Hadamard) product `A * B`. -/
def matHadamard {N : ℕ} (A B : Mat N) : Mat N := fun i j => A i j * B i j

/-- numpy `.sum()`: the sum of all entries of a matrix. -/
def matTotal {N : ℕ} (A : Mat N) : ℚ := ∑ i, ∑ j, A i j

/-- numpy slice `er_ints_[i, j]`: the `N × N` matrix `(k, l) ↦ er[i, j, k, l]`. -/
def sliceIJ {N : ℕ} (er : Tsr N) (i j : Fin N) : Mat N := fun k l => er i j k l

/-- numpy slice `er_ints_[i, :, j]`: the `N × N` matrix `(a, b) ↦ er[i, a, j, b]`
(axes 1 and 3 of the tensor remain). -/
def sliceIColJ {N : ℕ} (er : Tsr N) (i j : Fin N) : Mat N := fun a b => er i a j b

/-- Embedding of `calc_fock_matrix` (SCF.py, lines 75-98): `Fuv = h_core_.copy()`, then for
every `i, j` the single update
`Fuv[i,j] += (Duv_*er_ints_[i, j]).sum() - 0.5*(Duv_*er_ints_[i, :, j]).sum()`.
Each cell is written exactly once, so the function computes this per-cell value. -/
def calc_fock_matrix (N : ℕ) (h_core_ : Mat N) (er_ints_ : Tsr N) (Duv_ : Mat N) : Mat N :=
  fun i j =>
    h_core_ i j +
      (matTotal (matHadamard Duv_ (sliceIJ er_ints_ i j)) -
        0.5 * matTotal (matHadamard Duv_ (sliceIColJ er_ints_ i j)))

/-- Embedding of `calc_tot_energy` (SCF.py, lines 148-165):
`Etot = 0.5*(Duv_*(Huv_+Fuv_)).sum()+Enuc_`. -/
def calc_tot_energy (N : ℕ) (Fuv_ Huv_ Duv_ : Mat N) (Enuc_ : ℚ) : ℚ :=
  0.5 * matTotal (matHadamard Duv_ (matAdd Huv_ Fuv_)) + Enuc_

/-- Reindexing the exchange contraction: for a symmetric `D` and a tensor
invariant under swapping its last two indices, the code's contraction
`Σ_{k,l} D[k,l]·er[i,k,j,l]` (the slice `er_ints_[i, :, j]` against `D`)
equals the spec's contraction `Σ_{k,l} D[k,l]·er[i,l,k,j]`. -/
lemma exchange_contraction_eq {N : ℕ} (D : Mat N) (er : Tsr N)
    (hD : ∀ k l, D k l = D l k)
    (hswap : ∀ a b c d, er a b d c = er a b c d) (i j : Fin N) :
    (∑ k, ∑ l, D k l * er i k j l) = ∑ k, ∑ l, D k l * er i l k j := by
  rw [Finset.sum_comm]
  apply Finset.sum_congr rfl
  intro a _
  apply Finset.sum_congr rfl
  intro b _
  rw [hD b a, hswap i b a j]

/-- C1: for every `N`, symmetric `D`, any `H`, and an ERI tensor with the
8-fold permutational symmetry of real two-electron integrals,
`calc_fock_matrix` returns `F` with
`F[i,j] = H[i,j] + Σ_{k,l} D[k,l]·er[i,j,k,l] − 0.5·Σ_{k,l} D[k,l]·er[i,l,k,j]`:
the code's exchange slice `er_ints_[i, :, j]` coincides with the spec's
exchange contraction under those symmetries. -/
theorem calc_fock_matrix_spec_contraction (N : ℕ) (H : Mat N) (er : Tsr N) (D : Mat N)
    (hD : ∀ k l, D k l = D l k)
    (hER : ∀ i j k l, er j i k l = er i j k l ∧ er i j l k = er i j k l ∧
      er k l i j = er i j k l) :
    ∀ i j, calc_fock_matrix N H er D i j
      = H i j + (∑ k, ∑ l, D k l * er i j k l) - 0.5 * (∑ k, ∑ l, D k l * er i l k j) := by
  intro i j
  have hswap : ∀ a b c d, er a b d c = er a b c d := fun a b c d => (hER a b c d).2.1
  show H i j + ((∑ k, ∑ l, D k l * er i j k l) - 0.5 * (∑ k, ∑ l, D k l * er i k j l))
      = H i j + (∑ k, ∑ l, D k l * er i j k l) - 0.5 * (∑ k, ∑ l, D k l * er i l k j)
  rw [exchange_contraction_eq D er hD hswap i j]
  ring

/-- Concrete symmetric 2×2 density matrix used by witnesses. -/
def Dc : Mat 2 := fun k l => (k.val : ℚ) + l.val

/-- Concrete 2×2×2×2 tensor with the full 8-fold symmetry, used by witnesses. -/
def Tc : Tsr 2 := fun i j k l =>
  ((i.val : ℚ) * j.val + 1) * ((k.val : ℚ) * l.val + 1) +
    ((i.val : ℚ) + j.val) * ((k.val : ℚ) + l.val)

/-- Concrete (deliberately non-symmetric) 2×2 core Hamiltonian for the C1 witness. -/
def Hc : Mat 2 := fun i j => (i.val : ℚ) - 2 * j.val

/-- Witness for C1 at `N = 2`, evaluated at the cell `(0, 1)`. -/
theorem calc_fock_matrix_spec_contraction_witness :
    calc_fock_matrix 2 Hc Tc Dc 0 1
      = Hc 0 1 + (∑ k, ∑ l, Dc k l * Tc 0 1 k l) - 0.5 * (∑ k, ∑ l, Dc k l * Tc 0 l k 1) :=
  calc_fock_matrix_spec_contraction 2 Hc Tc Dc
    (by intro k l; simp only [Dc]; ring)
    (by intro i j k l; refine ⟨?_, ?_, ?_⟩ <;> simp only [Tc] <;> ring) 0 1

/-- C7: for every `N`, matrices `F`, `H`, `D` and scalar `E_nuc`,
`calc_tot_energy` returns exactly `0.5·Σ_{i,j} D[i,j]·(H[i,j]+F[i,j]) + E_nuc`. -/
theorem calc_tot_energy_trace_formula (N : ℕ) (F H D : Mat N) (Enuc : ℚ) :
    calc_tot_energy N F H D Enuc = 0.5 * (∑ i, ∑ j, D i j * (H i j + F i j)) + Enuc := rfl

/-- C8: for symmetric `D`, symmetric `H` and an ERI tensor with the 8-fold
symmetry, the Fock matrix returned by `calc_fock_matrix` is symmetric. -/
theorem calc_fock_matrix_symmetric (N : ℕ) (H : Mat N) (er : Tsr N) (D : Mat N)
    (hD : ∀ k l, D k l = D l k) (hH : ∀ i j, H i j = H j i)
    (hER : ∀ i j k l, er j i k l = er i j k l ∧ er i j l k = er i j k l ∧
      er k l i j = er i j k l) :
    ∀ i j, calc_fock_matrix N H er D i j = calc_fock_matrix N H er D j i := by
  intro i j
  have hswap : ∀ a b c d, er a b d c = er a b c d := fun a b c d => (hER a b c d).2.1
  have hpair : ∀ a b c d, er c d a b = er a b c d := fun a b c d => (hER a b c d).2.2
  have hfirst : ∀ a b c d, er b a c d = er a b c d := fun a b c d => (hER a b c d).1
  have hc : (∑ k, ∑ l, D k l * er j i k l) = ∑ k, ∑ l, D k l * er i j k l := by
    apply Finset.sum_congr rfl
    intro k _
    apply Finset.sum_congr rfl
    intro l _
    rw [hfirst j i k l]
  have e1 : (∑ k, ∑ l, D k l * er j k i l) = ∑ k, ∑ l, D k l * er i l k j := by
    apply Finset.sum_congr rfl
    intro k _
    apply Finset.sum_congr rfl
    intro l _
    rw [hpair i l j k, hswap i l k j]
  have hx : (∑ k, ∑ l, D k l * er j k i l) = ∑ k, ∑ l, D k l * er i k j l :=
    e1.trans (exchange_contraction_eq D er hD hswap i j).symm
  show H i j + ((∑ k, ∑ l, D k l * er i j k l) - 0.5 * (∑ k, ∑ l, D k l * er i k j l))
      = H j i + ((∑ k, ∑ l, D k l * er j i k l) - 0.5 * (∑ k, ∑ l, D k l * er j k i l))
  rw [hH i j, hc, hx]

/-- Concrete symmetric 2×2 core Hamiltonian for the C8 witness. -/
def Hs : Mat 2 := fun i j => (i.val : ℚ) * j.val + 1

/-- Witness for C8 at `N = 2`, evaluated at the cell pair `(0, 1)` and `(1, 0)`. -/
theorem calc_fock_matrix_symmetric_witness :
    calc_fock_matrix 2 Hs Tc Dc 0 1 = calc_fock_matrix 2 Hs Tc Dc 1 0 :=
  calc_fock_matrix_symmetric 2 Hs Tc Dc
    (by intro k l; simp only [Dc]; ring)
    (by intro i j; simp only [Hs]; ring)
    (by intro i j k l; refine ⟨?_, ?_, ?_⟩ <;> simp only [Tc] <;> ring) 0 1

/-! ### Imperative model of `calc_fock_matrix` for the frame property

numpy arrays are reference types; `Fuv = h_core_.copy()` allocates a fresh
array and the loop's `+=` writes target only that array.  The state record
below carries the four arrays live during the call; each loop iteration is a
state transformer, so that preservation of the inputs is a theorem about the
run, not a modelling assumption. -/

/-- The arrays live during a `calc_fock_matrix` call. -/
structure FockState (N : ℕ) where
  Fuv : Mat N
  h_core : Mat N
  er_ints : Tsr N
  Duv : Mat N

/-- numpy in-place store `A[i, j] = v`. -/
def matStore {N : ℕ} (A : Mat N) (i j : Fin N) (v : ℚ) : Mat N :=
  fun a b => if a = i ∧ b = j then v else A a b

/-- The value added to `Fuv[i, j]` by the loop body:
`(Duv_*er_ints_[i, j]).sum() - 0.5*(Duv_*er_ints_[i, :, j]).sum()`.
It reads only `Duv` and `er_ints`, never `Fuv` or `h_core`. -/
def fockCell {N : ℕ} (s : FockState N) (i j : Fin N) : ℚ :=
  matTotal (matHadamard s.Duv (sliceIJ s.er_ints i j)) -
    0.5 * matTotal (matHadamard s.Duv (sliceIColJ s.er_ints i j))

/-- One iteration of the double loop: `Fuv[i, j] += fockCell`. -/
def fockStep {N : ℕ} (s : FockState N) (p : Fin N × Fin N) : FockState N :=
  { s with Fuv := matStore s.Fuv p.1 p.2 (s.Fuv p.1 p.2 + fockCell s p.1 p.2) }

/-- The row-major list of loop indices `(i, j)` of the nested
`for i in range(num_aos): for j in range(num_aos):`. -/
def fockLoopIdx (N : ℕ) : List (Fin N × Fin N) :=
  (List.finRange N).product (List.finRange N)

/-- The full imperative run of `calc_fock_matrix`: start from
`Fuv = h_core_.copy()` and fold the loop body over all index pairs. -/
def calc_fock_matrix_run (N : ℕ) (h_core_ : Mat N) (er_ints_ : Tsr N) (Duv_ : Mat N) :
    FockState N :=
  (fockLoopIdx N).foldl fockStep ⟨h_core_, h_core_, er_ints_, Duv_⟩

lemma fockStep_readonly {N : ℕ} (s : FockState N) (p : Fin N × Fin N) :
    (fockStep s p).h_core = s.h_core ∧ (fockStep s p).er_ints = s.er_ints ∧
      (fockStep s p).Duv = s.Duv :=
  ⟨rfl, rfl, rfl⟩

lemma fockFold_readonly {N : ℕ} (L : List (Fin N × Fin N)) (s : FockState N) :
    (L.foldl fockStep s).h_core = s.h_core ∧ (L.foldl fockStep s).er_ints = s.er_ints ∧
      (L.foldl fockStep s).Duv = s.Duv := by
  induction L generalizing s with
  | nil => exact ⟨rfl, rfl, rfl⟩
  | cons p L ih => simpa using ih (fockStep s p)

lemma fockCell_fockStep {N : ℕ} (s : FockState N) (p : Fin N × Fin N) :
    ∀ i j, fockCell (fockStep s p) i j = fockCell s i j := fun _ _ => rfl

/-- Characterisation of the fold: over a duplicate-free index list, the cell
`(i, j)` holds its initial value, plus the loop body's contribution exactly
when `(i, j)` was visited. -/
lemma fockFold_Fuv {N : ℕ} (L : List (Fin N × Fin N)) (hL : L.Nodup) (s : FockState N)
    (i j : Fin N) :
    (L.foldl fockStep s).Fuv i j =
      if (i, j) ∈ L then s.Fuv i j + fockCell s i j else s.Fuv i j := by
  induction L generalizing s with
  | nil => simp
  | cons p L ih =>
    have hnd : L.Nodup := hL.of_cons
    have hpn : p ∉ L := (List.nodup_cons.mp hL).1
    have hrec := ih hnd (fockStep s p)
    rw [List.foldl_cons, hrec]
    have hcell : fockCell (fockStep s p) i j = fockCell s i j := rfl
    by_cases hij : (i, j) = p
    · subst hij
      have hmem : ((i, j) ∈ (i, j) :: L) := List.mem_cons_self _ _
      have hnotin : (i, j) ∉ L := hpn
      simp only [hnotin, if_neg, hmem, if_pos, hcell]
      show (fockStep s (i, j)).Fuv i j = s.Fuv i j + fockCell s i j
      simp [fockStep, matStore]
    · have hFuv : (fockStep s p).Fuv i j = s.Fuv i j := by
        simp only [fockStep, matStore]
        have : ¬(i = p.1 ∧ j = p.2) := by
          intro hc
          exact hij (by cases p; simp_all)
        simp [this]
      have hmem : ((i, j) ∈ p :: L) ↔ ((i, j) ∈ L) := by
        simp [List.mem_cons, hij]
      by_cases hin : (i, j) ∈ L
      · simp [hin, hmem.mpr hin, hcell, hFuv]
      · simp [hin, hmem, hcell, hFuv]

/-- C9: the imperative run of `calc_fock_matrix` leaves `h_core_`, `er_ints_`
and `Duv_` exactly as they were, and its fresh output array `Fuv` carries the
value of the pure `calc_fock_matrix`. -/
theorem calc_fock_matrix_frame (N : ℕ) (h_core_ : Mat N) (er_ints_ : Tsr N) (Duv_ : Mat N) :
    (calc_fock_matrix_run N h_core_ er_ints_ Duv_).h_core = h_core_ ∧
    (calc_fock_matrix_run N h_core_ er_ints_ Duv_).er_ints = er_ints_ ∧
    (calc_fock_matrix_run N h_core_ er_ints_ Duv_).Duv = Duv_ ∧
    ∀ i j, (calc_fock_matrix_run N h_core_ er_ints_ Duv_).Fuv i j =
      calc_fock_matrix N h_core_ er_ints_ Duv_ i j := by
  have hnd : (fockLoopIdx N).Nodup :=
    (List.nodup_finRange N).product (List.nodup_finRange N)
  have hro := fockFold_readonly (fockLoopIdx N) ⟨h_core_, h_core_, er_ints_, Duv_⟩
  refine ⟨hro.1, hro.2.1, hro.2.2, ?_⟩
  intro i j
  have hmem : (i, j) ∈ fockLoopIdx N :=
    List.pair_mem_product.mpr ⟨List.mem_finRange i, List.mem_finRange j⟩
  have := fockFold_Fuv (fockLoopIdx N) hnd ⟨h_core_, h_core_, er_ints_, Duv_⟩ i j
  rw [calc_fock_matrix_run, this, if_pos hmem]
  rfl

/-! ### Density matrix former

`form_density_matrix` (SCF.py, lines 121-145) reads `mo_coeffs_[i, k]` and
`mo_coeffs_[j, k]` with `k` running over `range(nelec)`; numpy raises an
`IndexError` at runtime when `k` falls outside the `num_aos × num_aos`
coefficient array, and a Python `range` of a negative int is simply empty.
Both behaviours are part of the embedding because claim C6 turns on them. -/

/-- numpy runtime error raised by out-of-bounds indexing. -/
inductive NpErr where
  | indexError

@[simp] lemma ok_bind {ε α β : Type} (a : α) (f : α → Except ε β) :
    (Except.ok a : Except ε α) >>= f = f a := rfl

@[simp] lemma error_bind {ε α β : Type} (e : ε) (f : α → Except ε β) :
    (Except.error e : Except ε α) >>= f = Except.error e := rfl

@[simp] lemma pure_eq_ok {ε α : Type} (a : α) : (pure a : Except ε α) = Except.ok a := rfl

/-- Bounds-checked numpy read `A[i, k]` from an `n × n` array. -/
def npRead (n : ℕ) (A : ℕ → ℕ → ℚ) (i k : ℕ) : Except NpErr ℚ :=
  if i < n ∧ k < n then .ok (A i k) else .error .indexError

/-- Bounds-checked numpy store `A[i, j] = v` into an `n × n` array. -/
def npStore (n : ℕ) (A : ℕ → ℕ → ℚ) (i j : ℕ) (v : ℚ) : Except NpErr (ℕ → ℕ → ℚ) :=
  if i < n ∧ j < n then .ok (fun a b => if a = i ∧ b = j then v else A a b)
  else .error .indexError

/-- Innermost loop body of `form_density_matrix`:
`Duv[i, j] += 2.0*mo_coeffs_[i, k]*mo_coeffs_[j, k]`. -/
def densKStep (num_aos : ℕ) (mo_coeffs_ : ℕ → ℕ → ℚ) (i j : ℕ) (Duv : ℕ → ℕ → ℚ)
    (k : ℕ) : Except NpErr (ℕ → ℕ → ℚ) := do
  let cik ← npRead num_aos mo_coeffs_ i k
  let cjk ← npRead num_aos mo_coeffs_ j k
  npStore num_aos Duv i j (Duv i j + 2 * cik * cjk)

/-- Embedding of `form_density_matrix` (SCF.py, lines 121-145): `nelec = mol_.nelec[0]`,
`Duv = np.zeros((mol_.nao, mol_.nao))`, then
`for i in range(num_aos): for j in range(num_aos): for k in range(nelec):`
with the innermost update `Duv[i,j] += 2.0*mo_coeffs_[i,k]*mo_coeffs_[j,k]`.
The code performs no validation of `nelec` whatsoever. -/
def form_density_matrix (num_aos : ℕ) (nelec : ℤ) (mo_coeffs_ : ℕ → ℕ → ℚ) :
    Except NpErr (ℕ → ℕ → ℚ) :=
  (List.range num_aos).foldlM (fun Duv i =>
    (List.range num_aos).foldlM (fun Duv j =>
      (List.range nelec.toNat).foldlM (densKStep num_aos mo_coeffs_ i j) Duv) Duv)
    (fun _ _ => 0)

lemma densKStep_ok (n : ℕ) (C : ℕ → ℕ → ℚ) (i j k : ℕ) (D : ℕ → ℕ → ℚ)
    (hi : i < n) (hj : j < n) (hk : k < n) :
    densKStep n C i j D k =
      .ok (fun a b => if a = i ∧ b = j then D a b + 2 * C i k * C j k else D a b) := by
  unfold densKStep npRead npStore
  rw [if_pos ⟨hi, hk⟩]
  rw [ok_bind]
  rw [if_pos ⟨hj, hk⟩]
  rw [ok_bind]
  rw [if_pos ⟨hi, hj⟩]
  congr 1
  funext a b
  by_cases h : a = i ∧ b = j
  · obtain ⟨ha, hb⟩ := h
    rw [if_pos ⟨ha, hb⟩, if_pos ⟨ha, hb⟩, ha, hb]
  · rw [if_neg h, if_neg h]

/-- Running the `k` loop at a cell `(i, j)` adds `2·Σ_{k<m} C[i,k]·C[j,k]`
to that cell and touches nothing else. -/
lemma densK_run (n : ℕ) (C : ℕ → ℕ → ℚ) (i j : ℕ) (hi : i < n) (hj : j < n) :
    ∀ m, m ≤ n → ∀ D, (List.range m).foldlM (densKStep n C i j) D =
      .ok (fun a b => if a = i ∧ b = j
        then D a b + 2 * ∑ k in Finset.range m, C i k * C j k else D a b) := by
  intro m
  induction m with
  | zero =>
    intro _ D
    simp only [List.range_zero, List.foldlM_nil, Finset.range_zero, Finset.sum_empty,
      pure_eq_ok]
    congr 1
    funext a b
    by_cases h : a = i ∧ b = j
    · simp [h]
    · simp [h]
  | succ m ih =>
    intro hm D
    have hmn : m ≤ n := Nat.le_of_succ_le hm
    have hmlt : m < n := Nat.lt_of_succ_le hm
    rw [List.range_succ, List.foldlM_append, ih hmn D, ok_bind, List.foldlM_cons,
      densKStep_ok n C i j m _ hi hj hmlt]
    simp only [if_pos (And.intro rfl rfl), List.foldlM_nil, ok_bind, pure_eq_ok]
    congr 1
    funext a b
    by_cases h : a = i ∧ b = j
    · obtain ⟨ha, hb⟩ := h
      subst ha; subst hb
      simp only [and_self, if_pos, Finset.sum_range_succ]
      ring
    · simp [h]

/-- Running the `j` loop for a row `i` adds the contribution to every cell
`(i, b)` with `b < m` and touches nothing else. -/
lemma densJ_run (n : ℕ) (z : ℤ) (C : ℕ → ℕ → ℚ) (i : ℕ) (hi : i < n) (hz : z.toNat ≤ n) :
    ∀ m, m ≤ n → ∀ D, (List.range m).foldlM (fun Duv j =>
        (List.range z.toNat).foldlM (densKStep n C i j) Duv) D =
      .ok (fun a b => if a = i ∧ b < m
        then D a b + 2 * ∑ k in Finset.range z.toNat, C i k * C b k else D a b) := by
  intro m
  induction m with
  | zero =>
    intro _ D
    simp only [List.range_zero, List.foldlM_nil, pure_eq_ok]
    congr 1
    funext a b
    simp
  | succ m ih =>
    intro hm D
    have hmn : m ≤ n := Nat.le_of_succ_le hm
    have hmlt : m < n := Nat.lt_of_succ_le hm
    rw [List.range_succ, List.foldlM_append, ih hmn D, ok_bind, List.foldlM_cons,
      densK_run n C i m hi hmlt z.toNat hz, ok_bind, List.foldlM_nil, pure_eq_ok]
    congr 1
    funext a b
    by_cases hcell : a = i ∧ b = m
    · obtain ⟨ha, hbm⟩ := hcell
      have hG : ¬ (a = i ∧ b < m) := fun hc => absurd hc.2 (by omega)
      have hR : a = i ∧ b < m + 1 := ⟨ha, by omega⟩
      rw [if_pos ⟨ha, hbm⟩, if_neg hG, if_pos hR, hbm]
    · by_cases hrow : a = i ∧ b < m
      · have hR : a = i ∧ b < m + 1 := ⟨hrow.1, by omega⟩
        rw [if_neg hcell, if_pos hrow, if_pos hR]
      · have hnot : ¬ (a = i ∧ b < m + 1) := by
          rintro ⟨ha, hlt⟩
          rcases Nat.lt_succ_iff_lt_or_eq.mp hlt with h | h
          · exact hrow ⟨ha, h⟩
          · exact hcell ⟨ha, h⟩
        rw [if_neg hcell, if_neg hrow, if_neg hnot]

/-- Running the `i` loop fills every cell of the `m × n` leading block. -/
lemma densI_run (n : ℕ) (z : ℤ) (C : ℕ → ℕ → ℚ) (hz : z.toNat ≤ n) :
    ∀ m, m ≤ n → ∀ D, (List.range m).foldlM (fun Duv i =>
        (List.range n).foldlM (fun Duv j =>
          (List.range z.toNat).foldlM (densKStep n C i j) Duv) Duv) D =
      .ok (fun a b => if a < m ∧ b < n
        then D a b + 2 * ∑ k in Finset.range z.toNat, C a k * C b k else D a b) := by
  intro m
  induction m with
  | zero =>
    intro _ D
    have hfun : (fun a b => if a < 0 ∧ b < n
        then D a b + 2 * ∑ k in Finset.range z.toNat, C a k * C b k else D a b)
        = D := by
      funext a b
      simp
    rw [List.range_zero, List.foldlM_nil, hfun, pure_eq_ok]
  | succ m ih =>
    intro hm D
    have hmn : m ≤ n := Nat.le_of_succ_le hm
    have hmlt : m < n := Nat.lt_of_succ_le hm
    rw [List.range_succ, List.foldlM_append, ih hmn D, ok_bind,
      List.foldlM_cons, densJ_run n z C m hmlt hz n (le_refl n), ok_bind,
      List.foldlM_nil, pure_eq_ok]
    congr 1
    funext a b
    by_cases hrow : a = m ∧ b < n
    · obtain ⟨ham, hbn⟩ := hrow
      have hG : ¬ (a < m ∧ b < n) := fun hc => absurd hc.1 (by omega)
      have hR : a < m + 1 ∧ b < n := ⟨by omega, hbn⟩
      rw [if_pos ⟨ham, hbn⟩, if_neg hG, if_pos hR, ham]
    · by_cases hblk : a < m ∧ b < n
      · have hne : ¬ (a = m ∧ b < n) := fun hc => absurd hc.1 (by omega)
        have hR : a < m + 1 ∧ b < n := ⟨by omega, hblk.2⟩
        rw [if_neg hne, if_pos hblk, if_pos hR]
      · have hnot : ¬ (a < m + 1 ∧ b < n) := by
          rintro ⟨hlt, hbn⟩
          rcases Nat.lt_succ_iff_lt_or_eq.mp hlt with h | h
          · exact hblk ⟨h, hbn⟩
          · exact hrow ⟨h, hbn⟩
        rw [if_neg hrow, if_neg hblk, if_neg hnot]

/-- Closed form of the density produced by `form_density_matrix` when the
occupation count fits:
`D[i,j] = 2·Σ_{k<n_occ} C[i,k]·C[j,k]` inside the `num_aos × num_aos` block
(and the array has no entries outside it). -/
def densClosedForm (num_aos mocc : ℕ) (C : ℕ → ℕ → ℚ) : ℕ → ℕ → ℚ :=
  fun a b => if a < num_aos ∧ b < num_aos
    then 2 * ∑ k in Finset.range mocc, C a k * C b k else 0

/-- When `nelec.toNat ≤ num_aos` the run succeeds with the closed form. -/
lemma form_density_matrix_ok (n : ℕ) (z : ℤ) (C : ℕ → ℕ → ℚ) (hz : z.toNat ≤ n) :
    form_density_matrix n z C = .ok (densClosedForm n z.toNat C) := by
  unfold form_density_matrix
  rw [densI_run n z C hz n (le_refl n)]
  congr 1
  funext a b
  unfold densClosedForm
  by_cases h : a < n ∧ b < n
  · simp [h]
  · simp [h]

/-- C5: for every `N × N` coefficient matrix and every `n_occ` with
`0 ≤ n_occ ≤ N`, `form_density_matrix` succeeds and returns `D` with
`D[i,j] = 2·Σ_{k=0}^{n_occ−1} C[i,k]·C[j,k]` for every `i, j`; only the
lowest `n_occ` columns of `C` participate in the sum. -/
theorem form_density_matrix_closed_shell (N : ℕ) (nelec : ℤ) (C : ℕ → ℕ → ℚ)
    (h0 : 0 ≤ nelec) (h1 : nelec ≤ (N : ℤ)) :
    ∃ D, form_density_matrix N nelec C = .ok D ∧
      ∀ i j, i < N → j < N →
        D i j = 2 * ∑ k in Finset.range nelec.toNat, C i k * C j k := by
  have hz : nelec.toNat ≤ N := by omega
  refine ⟨densClosedForm N nelec.toNat C, form_density_matrix_ok N nelec C hz, ?_⟩
  intro i j hi hj
  unfold densClosedForm
  rw [if_pos ⟨hi, hj⟩]

/-- Concrete 2×2 coefficient matrix for the C5 witness. -/
def Cw5 : ℕ → ℕ → ℚ := fun i k => (i : ℚ) + 2 * k + 1

/-- Witness for C5 with `N = 2`, `n_occ = 1`. -/
theorem form_density_matrix_closed_shell_witness :
    ∃ D, form_density_matrix 2 1 Cw5 = .ok D ∧
      ∀ i j, i < 2 → j < 2 →
        D i j = 2 * ∑ k in Finset.range (1 : ℤ).toNat, Cw5 i k * Cw5 j k :=
  form_density_matrix_closed_shell 2 1 Cw5 (by decide) (by decide)

/-- Concrete coefficient matrix for the C6 failing input. -/
def Cw6 : ℕ → ℕ → ℚ := fun _ _ => 1

/-- C6 (behaviour at the claim's failing inputs): `form_density_matrix` has no
validation of `n_occ`.  With `N = 1` and `n_occ = 2 > N` it aborts mid-loop
with numpy's `IndexError` (reading `mo_coeffs_[0, 1]`), not with a
`DomainError` surfaced before computation; with `n_occ = -1 < 0` it silently
returns the zero matrix, raising nothing at all. -/
theorem form_density_matrix_no_nocc_validation :
    form_density_matrix 1 2 Cw6 = .error .indexError ∧
      ∃ D, form_density_matrix 1 (-1) Cw6 = .ok D ∧ ∀ i j, D i j = 0 := by
  refine ⟨rfl, densClosedForm 1 (-1 : ℤ).toNat Cw6,
    form_density_matrix_ok 1 (-1) Cw6 (by decide), ?_⟩
  intro i j
  unfold densClosedForm
  by_cases h : i < 1 ∧ j < 1
  · rw [if_pos h]
    simp
  · rw [if_neg h]

/-- C10: for every real coefficient matrix (not only S-orthonormal ones) and
every `0 ≤ n_occ ≤ N`, the matrix returned by `form_density_matrix` is
symmetric and positive semidefinite — it is twice a Gram matrix of the first
`n_occ` columns — and for `n_occ = 0` it is the zero matrix. -/
theorem form_density_matrix_symm_psd (N : ℕ) (nelec : ℤ) (C : ℕ → ℕ → ℚ)
    (h0 : 0 ≤ nelec) (h1 : nelec ≤ (N : ℤ)) :
    ∃ D, form_density_matrix N nelec C = .ok D ∧
      (∀ i j, D i j = D j i) ∧
      (∀ x : ℕ → ℚ,
        0 ≤ ∑ i in Finset.range N, ∑ j in Finset.range N, x i * D i j * x j) ∧
      (nelec = 0 → ∀ i j, D i j = 0) := by
  have hz : nelec.toNat ≤ N := by omega
  refine ⟨densClosedForm N nelec.toNat C, form_density_matrix_ok N nelec C hz,
    ?_, ?_, ?_⟩
  · intro i j
    unfold densClosedForm
    by_cases h : i < N ∧ j < N
    · rw [if_pos h, if_pos ⟨h.2, h.1⟩]
      congr 1
      apply Finset.sum_congr rfl
      intro k _
      ring
    · have h2 : ¬ (j < N ∧ i < N) := fun hc => h ⟨hc.2, hc.1⟩
      rw [if_neg h, if_neg h2]
  · intro x
    have hpt : ∀ i ∈ Finset.range N, ∀ j ∈ Finset.range N,
        x i * densClosedForm N nelec.toNat C i j * x j
          = ∑ k in Finset.range nelec.toNat,
              2 * ((x i * C i k) * (x j * C j k)) := by
      intro i hi j hj
      rw [Finset.mem_range] at hi hj
      unfold densClosedForm
      rw [if_pos ⟨hi, hj⟩]
      calc x i * (2 * ∑ k in Finset.range nelec.toNat, C i k * C j k) * x j
          = (x i * x j * 2) * ∑ k in Finset.range nelec.toNat, C i k * C j k := by
            ring
        _ = ∑ k in Finset.range nelec.toNat, (x i * x j * 2) * (C i k * C j k) :=
            Finset.mul_sum _ _ _
        _ = ∑ k in Finset.range nelec.toNat, 2 * ((x i * C i k) * (x j * C j k)) := by
            apply Finset.sum_congr rfl
            intro k _
            ring
    have hQ : (∑ i in Finset.range N, ∑ j in Finset.range N,
            x i * densClosedForm N nelec.toNat C i j * x j)
        = ∑ k in Finset.range nelec.toNat,
            2 * ((∑ i in Finset.range N, x i * C i k) *
                 (∑ j in Finset.range N, x j * C j k)) := by
      calc (∑ i in Finset.range N, ∑ j in Finset.range N,
              x i * densClosedForm N nelec.toNat C i j * x j)
          = ∑ i in Finset.range N, ∑ j in Finset.range N,
              ∑ k in Finset.range nelec.toNat,
                2 * ((x i * C i k) * (x j * C j k)) :=
            Finset.sum_congr rfl fun i hi => Finset.sum_congr rfl fun j hj =>
              hpt i hi j hj
        _ = ∑ i in Finset.range N, ∑ k in Finset.range nelec.toNat,
              ∑ j in Finset.range N, 2 * ((x i * C i k) * (x j * C j k)) :=
            Finset.sum_congr rfl fun i _ => Finset.sum_comm
        _ = ∑ k in Finset.range nelec.toNat, ∑ i in Finset.range N,
              ∑ j in Finset.range N, 2 * ((x i * C i k) * (x j * C j k)) :=
            Finset.sum_comm
        _ = ∑ k in Finset.range nelec.toNat,
              2 * ((∑ i in Finset.range N, x i * C i k) *
                   (∑ j in Finset.range N, x j * C j k)) := by
            apply Finset.sum_congr rfl
            intro k _
            rw [Finset.sum_mul_sum, Finset.mul_sum]
            apply Finset.sum_congr rfl
            intro i _
            rw [Finset.mul_sum]
    rw [hQ]
    apply Finset.sum_nonneg
    intro k _
    have hsq := mul_self_nonneg (∑ i in Finset.range N, x i * C i k)
    linarith
  · intro h0z i j
    subst h0z
    unfold densClosedForm
    by_cases h : i < N ∧ j < N
    · rw [if_pos h]
      simp
    · rw [if_neg h]

/-- Concrete 2×2 coefficient matrix for the C10 witness. -/
def Cw10 : ℕ → ℕ → ℚ := fun i k => (i : ℚ) * k + 1

/-- Witness for C10 with `N = 2`, `n_occ = 2`. -/
theorem form_density_matrix_symm_psd_witness :
    ∃ D, form_density_matrix 2 2 Cw10 = .ok D ∧
      (∀ i j, D i j = D j i) ∧
      (∀ x : ℕ → ℚ,
        0 ≤ ∑ i in Finset.range 2, ∑ j in Finset.range 2, x i * D i j * x j) ∧
      ((2 : ℤ) = 0 → ∀ i j, D i j = 0) :=
  form_density_matrix_symm_psd 2 2 Cw10 (by decide) (by decide)

/-! ### Nuclear repulsion energy

`calc_nuclear_repulsion_energy` (SCF.py, lines 10-37) allocates its distance
matrix as a fixed `np.zeros((3, 3))` and runs both inner loops over
`range(coords.shape[1])`, which is the number of Cartesian components `3`,
not the number of atoms.  Distances involve a square root, so they live in
`ℝ`; numpy float division never raises, so division is embedded as the total
real division. -/

/-- A molecule as the PySCF accessors expose it: an ordered list of atomic
charges (`mol_.atom_charges()`) and an equally long ordered list of
Cartesian coordinates (`mol_.atom_coords()`). -/
structure Molecule where
  charges : List ℚ
  coords : List (ℚ × ℚ × ℚ)

/-- Componentwise difference `coords[i]-coords[j]` of two numpy 3-vectors. -/
def vsub (a b : ℚ × ℚ × ℚ) : ℚ × ℚ × ℚ :=
  (a.1 - b.1, a.2.1 - b.2.1, a.2.2 - b.2.2)

/-- Embedding of `np.linalg.norm` of a 3-vector: the Euclidean norm. -/
noncomputable def npLinalgNorm (v : ℚ × ℚ × ℚ) : ℝ :=
  Real.sqrt ((v.1 : ℝ) ^ 2 + (v.2.1 : ℝ) ^ 2 + (v.2.2 : ℝ) ^ 2)

/-- Bounds-checked numpy/Python sequence read `l[i]`. -/
def listRead {α : Type} (l : List α) (i : ℕ) : Except NpErr α :=
  match l.get? i with
  | some a => .ok a
  | none => .error .indexError

/-- Bounds-checked store into the fixed `np.zeros((3, 3))` distance matrix. -/
def dm3Store (dm : ℕ → ℕ → ℝ) (i j : ℕ) (v : ℝ) : Except NpErr (ℕ → ℕ → ℝ) :=
  if i < 3 ∧ j < 3 then .ok (fun a b => if a = i ∧ b = j then v else dm a b)
  else .error .indexError

/-- Bounds-checked read from the fixed `3 × 3` distance matrix. -/
def dm3Read (dm : ℕ → ℕ → ℝ) (i j : ℕ) : Except NpErr ℝ :=
  if i < 3 ∧ j < 3 then .ok (dm i j) else .error .indexError

/-- Embedding of `calc_nuclear_repulsion_energy` (SCF.py, lines 10-37):
`distance_matrix = np.zeros((3, 3))`; then
`for i in range(coords.shape[0]): for j in range(coords.shape[1]):`
populates `distance_matrix[i, j] = np.linalg.norm(coords[i]-coords[j])`;
then `for i in range(coords.shape[0]): for j in range(i+1, coords.shape[1]):`
accumulates `Enuc += (charges[i]*charges[j])/distance_matrix[i, j]`.
`coords.shape[1]` is the hard-coded `3`. -/
noncomputable def calc_nuclear_repulsion_energy (mol_ : Molecule) :
    Except NpErr ℝ := do
  let charges := mol_.charges
  let coords := mol_.coords
  let dm ← (List.range coords.length).foldlM (fun dm i =>
      (List.range 3).foldlM (fun dm j => do
        let ci ← listRead coords i
        let cj ← listRead coords j
        dm3Store dm i j (npLinalgNorm (vsub ci cj))) dm)
    (fun _ _ => (0 : ℝ))
  (List.range coords.length).foldlM (fun Enuc i =>
      (List.range' (i + 1) (3 - (i + 1))).foldlM (fun Enuc j => do
        let qi ← listRead charges i
        let qj ← listRead charges j
        let dij ← dm3Read dm i j
        pure (Enuc + ((qi * qj : ℚ) : ℝ) / dij)) Enuc)
    (0 : ℝ)

/-- A 4-atom molecule (pairwise-distinct positions, unit charges). -/
def mol4 : Molecule :=
  ⟨[1, 1, 1, 1], [(0, 0, 0), (1, 0, 0), (0, 1, 0), (0, 0, 1)]⟩

/-- C2 (behaviour at the failing input): on a 4-atom molecule with pairwise
distinct positions the code raises numpy's `IndexError` — the write
`distance_matrix[3, 0]` falls outside the fixed `3 × 3` allocation — instead
of returning the pair sum over an `N_atoms × N_atoms` matrix. -/
theorem calc_nuclear_repulsion_four_atoms_index_error :
    calc_nuclear_repulsion_energy mol4 = .error .indexError := rfl

/-- The spec's boundary molecule: 2 atoms, charges `(1, 1)`, unit distance. -/
def mol2 : Molecule := ⟨[1, 1], [(0, 0, 0), (1, 0, 0)]⟩

/-- C3 (behaviour at the failing input): on the boundary molecule with 2
atoms, charges `(1, 1)` and unit distance, the code raises numpy's
`IndexError` — the distance loop runs `j` up to `coords.shape[1] = 3` and
reads the non-existent `coords[2]` — instead of returning `1.0`. -/
theorem calc_nuclear_repulsion_two_atoms_index_error :
    calc_nuclear_repulsion_energy mol2 = .error .indexError := rfl

/-- A 3-atom molecule whose first two (distinct) atoms coincide in space. -/
def molZeroDist : Molecule := ⟨[1, 1, 1], [(0, 0, 0), (0, 0, 0), (1, 0, 0)]⟩

/-- C4 (behaviour at the failing input): on a 3-atom molecule in which two
distinct atoms sit at zero distance, the run completes without raising any
error: the zero division is performed silently (numpy emits only a
`RuntimeWarning` and yields `inf`), so no explicit failure occurs. -/
theorem calc_nuclear_repulsion_zero_distance_no_error :
    (calc_nuclear_repulsion_energy molZeroDist).isOk = true := rfl

end SCF
